import Mathlib

/-!
Verification of the hash-partition pipeline in `cpp/src/hash/hashing.cu`.

The development shallowly embeds the two public operations of the file,
`cudf::detail::hash_partition` and `cudf::detail::hash`, together with the two
device kernels they drive (`compute_row_partition_numbers` and
`move_to_output_buffer`) and the partitioner functors.  Machine integers
(`size_type`, `hash_value_type`) are modelled as `Nat`; all quantities involved
(row counts, partition counts, offsets) are non-negative and far below 2^31 in
any invocation the library accepts, so no overflow wrapping arises.

The kernels are bulk-parallel; their shared-memory atomics are sequentialised
here per block in increasing row order.  This is one admissible schedule: the
set of local offsets handed out per (block, partition) pair, the per-block and
global histograms, and therefore every quantity the theorems below speak about,
are independent of the order in which the atomics of a block resolve.
-/

namespace cudf

/-! ### Compile-time constants (hashing.cu lines 32-34) -/

def BLOCK_SIZE : Nat := 512

def ROWS_PER_THREAD : Nat := 8

def ELEMENT_PER_BLOCK : Nat := 2

/-- Number of rows a single thread block is responsible for
(`rows_per_block = BLOCK_SIZE * ROWS_PER_THREAD`, line 331). -/
def rows_per_block : Nat := BLOCK_SIZE * ROWS_PER_THREAD

/-- Launch grid size, `util::div_rounding_up_safe(num_rows, rows_per_block)`
(line 332): the rounding-up division. -/
def grid_size (num_rows : Nat) : Nat :=
  (num_rows + rows_per_block - 1) / rows_per_block

/-- Power-of-two test, `0 == (number & (number - 1))` (lines 55-58). -/
def is_power_two (number : Nat) : Bool :=
  number &&& (number - 1) == 0

/-- The modulo partitioner functor (lines 40-53): maps a hash value to
`hash_value % divisor` where `divisor = num_partitions`. -/
def modulo_partitioner (num_partitions hash_value : Nat) : Nat :=
  hash_value % num_partitions

/-- The bitwise partitioner functor (lines 68-83): maps a hash value to
`hash_value & mask` where `mask = num_partitions - 1`. -/
def bitwise_partitioner (num_partitions hash_value : Nat) : Nat :=
  hash_value &&& (num_partitions - 1)

/-! ### One invocation of `hash_partition_table` (lines 321-436)

`PartCtx` bundles the quantities fixed for one invocation: the row count of the
table, the requested number of partitions and the row hasher.  The hasher is
the device functor `the_hasher` handed to `compute_row_partition_numbers`; it
maps a row index to the 32-bit hash of that row's key cells and is kept
abstract here, exactly as the kernel template keeps it abstract. -/

structure PartCtx where
  num_rows : Nat
  num_partitions : Nat
  the_hasher : Nat → Nat

/-- Grid size of the invocation's kernel launches. -/
def PartCtx.gridSz (ctx : PartCtx) : Nat := grid_size ctx.num_rows

/-- Partitioner selected by `hash_partition_table` (lines 356-386): the bitwise
functor when `num_partitions` is a power of two, the modulo functor
otherwise. -/
def the_partitioner (ctx : PartCtx) (hash_value : Nat) : Nat :=
  if is_power_two ctx.num_partitions then
    bitwise_partitioner ctx.num_partitions hash_value
  else
    modulo_partitioner ctx.num_partitions hash_value

/-- The block that processes row `i`.  In `compute_row_partition_numbers` (and
again in `move_to_output_buffer`) row numbers start at
`threadIdx.x + blockIdx.x * blockDim.x` and stride by
`blockDim.x * gridDim.x` (lines 121, 147), so block `b` handles exactly the
rows whose index is congruent to `b * BLOCK_SIZE + t` modulo
`BLOCK_SIZE * gridDim.x` for some `t < BLOCK_SIZE`. -/
def block_of (ctx : PartCtx) (i : Nat) : Nat :=
  (i % (BLOCK_SIZE * ctx.gridSz)) / BLOCK_SIZE

/-- Device array `row_partition_numbers[i]` (line 142): the partition assigned to row `i`,
obtained by hashing the row and applying the selected partitioner
(lines 138-142). -/
def row_partition_numbers (ctx : PartCtx) (i : Nat) : Nat :=
  the_partitioner ctx (ctx.the_hasher i)

/-- Device array `row_partition_offset[i]` (lines 144-145): the value returned by the
atomic post-increment of the block-local histogram bucket of row `i`'s
partition, i.e. the rank of row `i` among the rows of the same block destined
for the same partition.  The atomics are sequentialised in increasing row
order. -/
def row_partition_offset (ctx : PartCtx) (i : Nat) : Nat :=
  ((Finset.range i).filter (fun j =>
    row_partition_numbers ctx j = row_partition_numbers ctx i ∧
    block_of ctx j = block_of ctx i)).card

/-- Device array `block_partition_sizes[p * gridDim.x + b]` (lines 152-165): the number of
rows of block `b` destined for partition `p`, the block-local histogram flushed
to global memory at `write_location = partition_number * gridDim.x + blockIdx.x`
(line 162). -/
def block_partition_sizes (ctx : PartCtx) (p b : Nat) : Nat :=
  ((Finset.range ctx.num_rows).filter (fun i =>
    row_partition_numbers ctx i = p ∧ block_of ctx i = b)).card

/-- The flat `block_partition_sizes` device array of length
`gridSz * num_partitions`, partition-major (entry `idx` is partition
`idx / gridDim.x`, block `idx % gridDim.x`). -/
def block_partition_sizes_flat (ctx : PartCtx) (idx : Nat) : Nat :=
  block_partition_sizes ctx (idx / ctx.gridSz) (idx % ctx.gridSz)

/-- Device array `global_partition_sizes[p]` (line 159): total number of rows destined for
partition `p`, accumulated with `atomicAdd` across blocks. -/
def global_partition_sizes (ctx : PartCtx) (p : Nat) : Nat :=
  ((Finset.range ctx.num_rows).filter (fun i =>
    row_partition_numbers ctx i = p)).card

/-- Device array `scanned_block_partition_sizes[idx]` (lines 390-393): the exclusive prefix
scan of the flat `block_partition_sizes` array. -/
def scanned_block_partition_sizes (ctx : PartCtx) (idx : Nat) : Nat :=
  ∑ j ∈ Finset.range idx, block_partition_sizes_flat ctx j

/-- Device array `scanned_global_partition_sizes[p]` (lines 398-402): the exclusive prefix
scan, in place, of `global_partition_sizes`. -/
def scanned_global_partition_sizes (ctx : PartCtx) (p : Nat) : Nat :=
  ∑ q ∈ Finset.range p, global_partition_sizes ctx q

/-- The host-visible `partition_offsets` vector (lines 406-411): the first
`num_partitions` entries of the scanned global histogram. -/
def partition_offsets (ctx : PartCtx) : List Nat :=
  (List.range ctx.num_partitions).map (scanned_global_partition_sizes ctx)

/-! ### The scatter kernel `move_to_output_buffer` (lines 183-274)

Each block stages its rows in shared memory and then copies them, partition by
partition, to the output buffer.  The block computes two shared offset tables:

* `partition_offset_shared[p]` (lines 204-229): the in-block exclusive scan of
  this block's slice of `block_partition_sizes` — where partition `p`'s rows
  begin inside the staging buffer;
* `partition_offset_global[p]` (lines 232-236): the value
  `scanned_block_partition_sizes[p * gridDim.x + blockIdx.x]` — where this
  block's contribution to partition `p` begins in the output buffer.

The scan of lines 204-229 covers only the partitions loaded into `temp_histo`,
namely indices `ELEMENT_PER_BLOCK * threadIdx.x + i < num_partitions` with
`threadIdx.x < BLOCK_SIZE` and `i < ELEMENT_PER_BLOCK` — at most
`ELEMENT_PER_BLOCK * BLOCK_SIZE = 1024` partitions (the source comment at line
204 records this limit).  `shared_slot_written` below records exactly which
`partition_offset_shared` slots lines 221-229 write. -/

/-- Whether `partition_offset_shared[p]` is written by the kernel: slot 0 by
thread 0 (lines 221-223), and slot `idx + 1` for every
`idx < num_partitions` with `idx < ELEMENT_PER_BLOCK * BLOCK_SIZE`
(lines 225-229). -/
def shared_slot_written (num_partitions p : Nat) : Bool :=
  p == 0 || (0 < p && p - 1 < num_partitions && p - 1 < ELEMENT_PER_BLOCK * BLOCK_SIZE)

/-- Whether the copy loop (lines 260-273) reads `partition_offset_shared[s]`:
for every `ipartition < num_partitions` it reads slots `ipartition` and
`ipartition + 1` (line 265), so exactly the slots `s ≤ num_partitions`. -/
def copy_loop_reads_slot (num_partitions s : Nat) : Bool :=
  s ≤ num_partitions

/-- Value of `partition_offset_shared[p]` for the block `b` when the slot is
written: the in-block exclusive scan of the block's partition histogram
(lines 204-229). -/
def partition_offset_shared (ctx : PartCtx) (b p : Nat) : Nat :=
  ∑ q ∈ Finset.range p, block_partition_sizes ctx q b

/-- Staging-buffer slot into which row `i` is written by lines 243-251:
`partition_offset_shared[ipartition] + row_partition_offset[row_number]`. -/
def staged_slot (ctx : PartCtx) (i : Nat) : Nat :=
  partition_offset_shared ctx (block_of ctx i) (row_partition_numbers ctx i) +
    row_partition_offset ctx i

/-- The final output position of row `i`.  The copy loop (lines 260-273) moves
staging slot `partition_offset_shared[p] + k` of block `b` to
`output_buf[partition_offset_global[p] + k]` for every
`k < nelements_partition`, and
`partition_offset_global[p] = scanned_block_partition_sizes[p * gridDim.x + b]`
(line 234).  Composed with the staging write (lines 243-251), row `i` with
partition `p` and block `b` lands at
`scanned_block_partition_sizes[p * gridDim.x + b] + row_partition_offset[i]`. -/
def output_position (ctx : PartCtx) (i : Nat) : Nat :=
  scanned_block_partition_sizes ctx
    (row_partition_numbers ctx i * ctx.gridSz + block_of ctx i) +
    row_partition_offset ctx i

/-- One output column of `hash_partition`: position `k` of the preallocated
output buffer (line 291, sized `input.size()`) holds the cell of the unique
input row that `move_to_output_buffer` writes there. -/
def move_to_output_buffer {α : Type} (ctx : PartCtx) (input_buf : List α)
    (dflt : α) : List α :=
  (List.range ctx.num_rows).map (fun k =>
    match (List.range ctx.num_rows).find? (fun i => output_position ctx i == k) with
    | some i => input_buf.getD i dflt
    | none => dflt)

/-- The output table assembled by `hash_partition_table` (lines 413-434): every
input column is moved by the same routing arrays. -/
def output_table {α : Type} (ctx : PartCtx) (cols : List (List α))
    (dflt : α) : List (List α) :=
  cols.map (fun c => move_to_output_buffer ctx c dflt)

/-- The list of rows of a columnar table with `num_rows` rows: row `k` collects
cell `k` of every column. -/
def table_rows {α : Type} (num_rows : Nat) (cols : List (List α))
    (dflt : α) : List (List α) :=
  (List.range num_rows).map (fun k => cols.map (fun c => c.getD k dflt))

/-! ### The row hasher

The device functor `experimental::row_hasher<MurmurHash3_32, has_nulls>`
(line 352) lives in `cudf/table/row_operators.cuh`, which is not part of this
repository snapshot; only its instantiation is. -/

/-- A fixed-width cell: its bit pattern and whether it is logically null. -/
structure Cell where
  bits : Nat
  null : Bool
deriving DecidableEq, Repr

/-- Modelled from the spec: the per-cell contribution of the row hasher of
`cudf/table/row_operators.cuh` (absent from src/).  Per spec section 4.1, each
cell is hashed with a 32-bit MurmurHash3-style hash of its bit pattern; for a
null cell, under the null-aware path (`has_nulls = true`), a fixed 32-bit
sentinel constant is substituted before combining.  Under the null-oblivious
path the null flag is never consulted and the bit pattern is hashed.  The
cell hash and the sentinel are kept abstract parameters. -/
def cell_contribution (cellHash : Nat → Nat) (sentinel : Nat) (has_nulls : Bool)
    (c : Cell) : Nat :=
  if has_nulls && c.null then sentinel else cellHash c.bits

/-- Modelled from the spec: the row hasher of `cudf/table/row_operators.cuh`
(absent from src/).  Per spec section 4.1, the per-cell hashes of the key
cells of a row are combined with an order-dependent combiner applied in column
order, left to right; the combiner and its initial value are kept abstract. -/
def row_hasher (cellHash : Nat → Nat) (combine : Nat → Nat → Nat)
    (sentinel init : Nat) (has_nulls : Bool) (keyCells : List Cell) : Nat :=
  (keyCells.map (cell_contribution cellHash sentinel has_nulls)).foldl combine init

/-! ### Column types and the orchestrator `detail::hash_partition` (lines 447-471)

The host-side control flow of `detail::hash_partition`,
`hash_partition_table` and the per-column dispatcher
`move_to_output_buffer_dispatcher` is modelled schema-level, with an explicit
trace of the device-visible actions so that the order of validation against
kernel launches and allocations can be stated. -/

/-- Physical column types.  `string_type` stands for the variable-width types,
for which `is_fixed_width` is false. -/
inductive DType where
  | int8 | int16 | int32 | int64 | uint32 | float32 | float64 | bool8
  | string_type
deriving DecidableEq, Repr

/-- Modelled from the spec: `cudf::is_fixed_width` (a type trait of
`cudf/utilities/traits.hpp`, absent from src/).  Per spec section 3, the
fixed-width types are the integer, floating-point and boolean primitive types;
variable-width (string) columns are not fixed-width. -/
def DType.is_fixed_width : DType → Bool
  | .string_type => false
  | _ => true

/-- A column as the dispatcher sees it: its physical type and whether it
carries a null mask (`input.null_mask() != nullptr`). -/
structure ColumnView where
  dtype : DType
  nullable : Bool
deriving DecidableEq, Repr

/-- A table view: its columns' schema and its row count. -/
structure TableView where
  cols : List ColumnView
  num_rows : Nat
deriving DecidableEq, Repr

/-- Modelled from the spec: `experimental::empty_like(input)`
(`cudf/copying.hpp`, absent from src/) — a table of the same schema with zero
rows. -/
def empty_like (input : TableView) : TableView :=
  { cols := input.cols, num_rows := 0 }

/-- Device-visible actions of one `hash_partition` invocation, in host-issue
order. -/
inductive HPEvent where
  | allocRoutingTables
  | launchHistogramKernel
  | scanBlockSizes
  | scanGlobalSizes
  | copyOffsetsToHost
  | allocOutputBuffer
  | launchScatterKernel
deriving DecidableEq, Repr

/-- Dispatcher `move_to_output_buffer_dispatcher::operator()` for one column
(lines 276-319): a non-fixed-width type fails with
`CUDF_FAIL("non-fixed width types unsupported")` (line 317); a fixed-width
column first checks `CUDF_EXPECTS(input.null_mask() == nullptr, ...)`
(line 289), then allocates the output buffer (line 291) and launches the
scatter kernel (lines 295-300). -/
def dispatch_column (c : ColumnView) : List HPEvent × Option String :=
  if c.dtype.is_fixed_width then
    if c.nullable then ([], some "null input column unsupported")
    else ([HPEvent.allocOutputBuffer, HPEvent.launchScatterKernel], none)
  else ([], some "non-fixed width types unsupported")

/-- The `std::transform` over the input columns (lines 420-432): dispatch each
column in order; the first error aborts the loop.  Returns the events of the
completed dispatches and the first error, if any. -/
def process_columns : List ColumnView → List HPEvent × Option String
  | [] => ([], none)
  | c :: rest =>
    match dispatch_column c with
    | (evs, some msg) => (evs, some msg)
    | (evs, none) =>
      let r := process_columns rest
      (evs ++ r.1, r.2)

/-- Host function `hash_partition_table` (lines 321-436) followed by the assembly in
`detail::hash_partition`: allocate the routing tables (lines 334-349), launch
the histogram kernel (lines 356-386), run the two exclusive scans
(lines 388-402), issue the host copy of the offsets (lines 404-411), then
dispatch every column (lines 413-432). -/
def hash_partition_table (input : TableView) (ctx : PartCtx) :
    List HPEvent × Except String (TableView × List Nat) :=
  let pre := [HPEvent.allocRoutingTables, HPEvent.launchHistogramKernel,
              HPEvent.scanBlockSizes, HPEvent.scanGlobalSizes,
              HPEvent.copyOffsetsToHost]
  match process_columns input.cols with
  | (evs, some msg) => (pre ++ evs, Except.error msg)
  | (evs, none) =>
    (pre ++ evs,
     Except.ok ({ cols := input.cols, num_rows := input.num_rows },
                partition_offsets ctx))

/-- Host function `detail::hash_partition` (lines 447-471): select the key sub-view, return
an empty-like table with an empty offsets vector when there are no partitions,
no rows or no key columns (lines 459-462), otherwise run
`hash_partition_table` (the `has_nulls` template flag selects the hasher
instantiation and does not change the host control flow).  `num_partitions`
is a C++ `int`, so it is modelled as `Int`.  `the_hasher` abstracts the row
hasher over the selected key columns. -/
def hash_partition (input : TableView) (columns_to_hash : List Nat)
    (num_partitions : Int) (the_hasher : Nat → Nat) :
    List HPEvent × Except String (TableView × List Nat) :=
  let table_to_hash := columns_to_hash.filterMap (fun k => input.cols.get? k)
  if num_partitions ≤ 0 ∨ input.num_rows = 0 ∨ table_to_hash.length = 0 then
    ([], Except.ok (empty_like input, []))
  else
    hash_partition_table input
      { num_rows := input.num_rows,
        num_partitions := num_partitions.toNat,
        the_hasher := the_hasher }

/-! ### `detail::hash` (lines 473-520) -/

/-- The column returned by `detail::hash`: its element type and row count. -/
structure HashColumn where
  dtype : DType
  len : Nat
deriving DecidableEq, Repr

/-- Host-side actions of one `detail::hash` invocation. -/
inductive HashEvent where
  | makeOutputColumn
  | tabulateHashes
deriving DecidableEq, Repr

/-- Host function `detail::hash` (lines 473-520): build the INT32 output column of
`input.num_rows()` rows first (line 479), return it immediately when the table
has no columns or no rows (lines 482-484); otherwise, when a non-empty seed
vector is supplied, require its length to equal the column count
(lines 492-493) and tabulate the row hashes; with no seeds, tabulate with the
default hasher (lines 507-517). -/
def hash (input : TableView) (initial_hash : List Nat) :
    List HashEvent × Except String HashColumn :=
  let output : HashColumn := { dtype := DType.int32, len := input.num_rows }
  if input.cols.length = 0 ∨ input.num_rows = 0 then
    ([HashEvent.makeOutputColumn], Except.ok output)
  else if initial_hash ≠ [] then
    if initial_hash.length ≠ input.cols.length then
      ([HashEvent.makeOutputColumn],
       Except.error "Expected same size of initial hash values as number of columns")
    else
      ([HashEvent.makeOutputColumn, HashEvent.tabulateHashes], Except.ok output)
  else
    ([HashEvent.makeOutputColumn, HashEvent.tabulateHashes], Except.ok output)

/-! ### Concrete instances used by the witness theorems -/

/-- A small invocation: three rows, two partitions, the identity hasher. -/
def exCtx : PartCtx :=
  { num_rows := 3, num_partitions := 2, the_hasher := fun i => i }

/-- A small invocation with a non-power-of-two partition count. -/
def exCtx3 : PartCtx :=
  { num_rows := 4, num_partitions := 3, the_hasher := fun i => 2 * i + 1 }

/-- A one-column, five-row int32 table. -/
def exTable : TableView :=
  { cols := [{ dtype := DType.int32, nullable := false }], num_rows := 5 }

/-- A table whose single column is a string column. -/
def exStringTable : TableView :=
  { cols := [{ dtype := DType.string_type, nullable := false }], num_rows := 1 }

/-- A table with no columns. -/
def exNoColsTable : TableView := { cols := [], num_rows := 5 }

/-- Key cells for the co-location witness: rows 0 and 2 carry identical
cells, row 1 differs. -/
def exKeyCells : Nat → List Cell :=
  fun i => [{ bits := i % 2, null := false }]

/-- The co-location witness context: three rows hashed through the modelled
row hasher over `exKeyCells`. -/
def exCtxCells : PartCtx :=
  { num_rows := 3, num_partitions := 2,
    the_hasher := fun i =>
      row_hasher (fun b => b + 7) (fun a b => 31 * a + b) 42 0 true (exKeyCells i) }

/-- The source row written to output slot `k`: the unique row whose
`output_position` is `k` (0 when no row maps there). -/
def inverse_position (ctx : PartCtx) (k : Nat) : Nat :=
  ((List.range ctx.num_rows).find?
    (fun i => output_position ctx i == k)).getD 0

/-! ### Basic bounds -/

theorem grid_size_pos {num_rows : Nat} (h : 0 < num_rows) :
    0 < grid_size num_rows := by
  unfold grid_size rows_per_block BLOCK_SIZE ROWS_PER_THREAD
  omega

theorem the_partitioner_lt (ctx : PartCtx) (hv : Nat)
    (hN : 0 < ctx.num_partitions) :
    the_partitioner ctx hv < ctx.num_partitions := by
  unfold the_partitioner bitwise_partitioner modulo_partitioner
  by_cases hp : is_power_two ctx.num_partitions
  · simp only [hp, if_true]
    exact Nat.lt_of_le_of_lt Nat.and_le_right (by omega)
  · simp only [hp, if_false]
    exact Nat.mod_lt _ hN

theorem row_partition_numbers_lt (ctx : PartCtx) (i : Nat)
    (hN : 0 < ctx.num_partitions) :
    row_partition_numbers ctx i < ctx.num_partitions :=
  the_partitioner_lt ctx _ hN

theorem block_of_lt (ctx : PartCtx) (i : Nat) (hB : 0 < ctx.gridSz) :
    block_of ctx i < ctx.gridSz := by
  unfold block_of
  have hpos : 0 < BLOCK_SIZE * ctx.gridSz := by
    unfold BLOCK_SIZE; omega
  have hmod : i % (BLOCK_SIZE * ctx.gridSz) < BLOCK_SIZE * ctx.gridSz :=
    Nat.mod_lt _ hpos
  set m := i % (BLOCK_SIZE * ctx.gridSz) with hm
  unfold BLOCK_SIZE at hmod ⊢
  omega

theorem row_partition_offset_lt (ctx : PartCtx) (i : Nat)
    (hi : i < ctx.num_rows) :
    row_partition_offset ctx i <
      block_partition_sizes ctx (row_partition_numbers ctx i) (block_of ctx i) := by
  unfold row_partition_offset block_partition_sizes
  apply Finset.card_lt_card
  rw [Finset.ssubset_iff_of_subset]
  · exact ⟨i, Finset.mem_filter.2 ⟨Finset.mem_range.2 hi, rfl, rfl⟩,
      fun hmem => absurd (Finset.mem_range.1 (Finset.mem_filter.1 hmem).1)
        (lt_irrefl i)⟩
  · exact Finset.filter_subset_filter _
      (Finset.range_subset.2 (Nat.le_of_lt hi))

/-! ### Fiber decompositions of the histograms -/

theorem global_eq_sum_blocks (ctx : PartCtx) (p : Nat) (hB : 0 < ctx.gridSz) :
    global_partition_sizes ctx p =
      ∑ b ∈ Finset.range ctx.gridSz, block_partition_sizes ctx p b := by
  unfold global_partition_sizes block_partition_sizes
  rw [Finset.card_eq_sum_card_fiberwise
    (f := block_of ctx) (t := Finset.range ctx.gridSz)
    (fun i _ => Finset.mem_range.2 (block_of_lt ctx i hB))]
  refine Finset.sum_congr rfl fun b _ => ?_
  rw [Finset.filter_filter]

theorem sum_global_eq_num_rows (ctx : PartCtx) (hN : 0 < ctx.num_partitions) :
    ∑ p ∈ Finset.range ctx.num_partitions, global_partition_sizes ctx p =
      ctx.num_rows := by
  unfold global_partition_sizes
  have h := Finset.card_eq_sum_card_fiberwise
    (s := Finset.range ctx.num_rows)
    (f := row_partition_numbers ctx) (t := Finset.range ctx.num_partitions)
    (fun i _ => Finset.mem_range.2 (row_partition_numbers_lt ctx i hN))
  rw [Finset.card_range] at h
  exact h.symm

/-! ### Decomposition of the block-size scan -/

theorem sum_range_split (f : Nat → Nat) (m n : Nat) :
    ∑ j ∈ Finset.range (m + n), f j =
      (∑ j ∈ Finset.range m, f j) + ∑ j ∈ Finset.range n, f (m + j) := by
  induction n with
  | zero => simp
  | succ n ih =>
    rw [← Nat.add_assoc, Finset.sum_range_succ, Finset.sum_range_succ, ih,
      Nat.add_assoc]

theorem block_partition_sizes_flat_at (ctx : PartCtx) (p b : Nat)
    (hb : b < ctx.gridSz) :
    block_partition_sizes_flat ctx (p * ctx.gridSz + b) =
      block_partition_sizes ctx p b := by
  have hB : 0 < ctx.gridSz := by omega
  have h1 : (p * ctx.gridSz + b) / ctx.gridSz = p := by
    rw [Nat.mul_comm, Nat.mul_add_div hB, Nat.div_eq_of_lt hb, Nat.add_zero]
  have h2 : (p * ctx.gridSz + b) % ctx.gridSz = b := by
    rw [Nat.mul_comm, Nat.mul_add_mod, Nat.mod_eq_of_lt hb]
  rw [block_partition_sizes_flat, h1, h2]

theorem scanned_at_mul (ctx : PartCtx) (p : Nat) (hB : 0 < ctx.gridSz) :
    scanned_block_partition_sizes ctx (p * ctx.gridSz) =
      ∑ q ∈ Finset.range p, ∑ b ∈ Finset.range ctx.gridSz,
        block_partition_sizes ctx q b := by
  induction p with
  | zero => simp [scanned_block_partition_sizes]
  | succ p ih =>
    rw [Finset.sum_range_succ, ← ih, Nat.succ_mul,
      scanned_block_partition_sizes, sum_range_split]
    congr 1
    exact Finset.sum_congr rfl fun b hb =>
      block_partition_sizes_flat_at ctx p b (Finset.mem_range.1 hb)

theorem scanned_decomp (ctx : PartCtx) (p b : Nat) (hB : 0 < ctx.gridSz)
    (hb : b ≤ ctx.gridSz) :
    scanned_block_partition_sizes ctx (p * ctx.gridSz + b) =
      (∑ q ∈ Finset.range p, ∑ b' ∈ Finset.range ctx.gridSz,
        block_partition_sizes ctx q b') +
      ∑ b' ∈ Finset.range b, block_partition_sizes ctx p b' := by
  rw [scanned_block_partition_sizes, sum_range_split, ← scanned_at_mul ctx p hB]
  rw [scanned_block_partition_sizes]
  congr 1
  exact Finset.sum_congr rfl fun b' hb' =>
    block_partition_sizes_flat_at ctx p b'
      (Nat.lt_of_lt_of_le (Finset.mem_range.1 hb') hb)

/-! ### Location of each row in the output buffer -/

theorem output_position_bounds (ctx : PartCtx) (i : Nat)
    (hi : i < ctx.num_rows) (hN : 0 < ctx.num_partitions) :
    scanned_global_partition_sizes ctx (row_partition_numbers ctx i) ≤
      output_position ctx i ∧
    output_position ctx i <
      scanned_global_partition_sizes ctx (row_partition_numbers ctx i) +
        global_partition_sizes ctx (row_partition_numbers ctx i) := by
  have hB : 0 < ctx.gridSz := grid_size_pos (by omega)
  have hb : block_of ctx i < ctx.gridSz := block_of_lt ctx i hB
  have hdec := scanned_decomp ctx (row_partition_numbers ctx i)
    (block_of ctx i) hB (Nat.le_of_lt hb)
  have hglob : ∀ q, (∑ b' ∈ Finset.range ctx.gridSz,
      block_partition_sizes ctx q b') = global_partition_sizes ctx q :=
    fun q => (global_eq_sum_blocks ctx q hB).symm
  have hsGH : (∑ q ∈ Finset.range (row_partition_numbers ctx i),
      ∑ b' ∈ Finset.range ctx.gridSz, block_partition_sizes ctx q b') =
      scanned_global_partition_sizes ctx (row_partition_numbers ctx i) := by
    rw [scanned_global_partition_sizes]
    exact Finset.sum_congr rfl fun q _ => hglob q
  rw [output_position, hdec, hsGH]
  constructor
  · omega
  · have hlt := row_partition_offset_lt ctx i hi
    have hsum : (∑ b' ∈ Finset.range (block_of ctx i),
        block_partition_sizes ctx (row_partition_numbers ctx i) b') +
        block_partition_sizes ctx (row_partition_numbers ctx i) (block_of ctx i)
        ≤ global_partition_sizes ctx (row_partition_numbers ctx i) := by
      rw [← Finset.sum_range_succ, ← hglob]
      exact Finset.sum_le_sum_of_subset (Finset.range_subset.2 hb)
    omega

theorem output_position_lt (ctx : PartCtx) (i : Nat)
    (hi : i < ctx.num_rows) (hN : 0 < ctx.num_partitions) :
    output_position ctx i < ctx.num_rows := by
  have hub := (output_position_bounds ctx i hi hN).2
  have hp : row_partition_numbers ctx i < ctx.num_partitions :=
    row_partition_numbers_lt ctx i hN
  have hle : scanned_global_partition_sizes ctx (row_partition_numbers ctx i) +
      global_partition_sizes ctx (row_partition_numbers ctx i) ≤ ctx.num_rows := by
    rw [← sum_global_eq_num_rows ctx hN, scanned_global_partition_sizes,
      ← Finset.sum_range_succ]
    exact Finset.sum_le_sum_of_subset (Finset.range_subset.2 hp)
  omega

/-- Strict monotonicity of the local offset inside one (block, partition)
fiber: the atomic of a later row returns a strictly larger prior count. -/
theorem row_partition_offset_strictMono (ctx : PartCtx) (i j : Nat)
    (hij : i < j)
    (hp : row_partition_numbers ctx i = row_partition_numbers ctx j)
    (hb : block_of ctx i = block_of ctx j) :
    row_partition_offset ctx i < row_partition_offset ctx j := by
  unfold row_partition_offset
  rw [hp, hb]
  apply Finset.card_lt_card
  rw [Finset.ssubset_iff_of_subset
    (Finset.filter_subset_filter _ (Finset.range_subset.2 (Nat.le_of_lt hij)))]
  exact ⟨i, Finset.mem_filter.2 ⟨Finset.mem_range.2 hij, hp, hb⟩,
    fun hmem => absurd (Finset.mem_range.1 (Finset.mem_filter.1 hmem).1)
      (lt_irrefl i)⟩

/-- The flat routing index of a row. -/
theorem output_position_strict (ctx : PartCtx) (i j : Nat)
    (hi : i < ctx.num_rows)
    (hflat : row_partition_numbers ctx i * ctx.gridSz + block_of ctx i <
             row_partition_numbers ctx j * ctx.gridSz + block_of ctx j) :
    output_position ctx i < output_position ctx j := by
  have hstep : scanned_block_partition_sizes ctx
      (row_partition_numbers ctx i * ctx.gridSz + block_of ctx i) +
      block_partition_sizes ctx (row_partition_numbers ctx i) (block_of ctx i) ≤
      scanned_block_partition_sizes ctx
        (row_partition_numbers ctx j * ctx.gridSz + block_of ctx j) := by
    have hB : 0 < ctx.gridSz := grid_size_pos (by omega)
    rw [← block_partition_sizes_flat_at ctx _ _ (block_of_lt ctx i hB),
      scanned_block_partition_sizes, scanned_block_partition_sizes,
      ← Finset.sum_range_succ]
    exact Finset.sum_le_sum_of_subset (Finset.range_subset.2 hflat)
  have hlt := row_partition_offset_lt ctx i hi
  rw [output_position, output_position]
  have hj : row_partition_offset ctx j ≥ 0 := Nat.zero_le _
  omega

theorem output_position_injOn (ctx : PartCtx) (i j : Nat)
    (hi : i < ctx.num_rows) (hj : j < ctx.num_rows)
    (heq : output_position ctx i = output_position ctx j) : i = j := by
  have hB : 0 < ctx.gridSz := grid_size_pos (by omega)
  rcases Nat.lt_trichotomy
    (row_partition_numbers ctx i * ctx.gridSz + block_of ctx i)
    (row_partition_numbers ctx j * ctx.gridSz + block_of ctx j) with hf | hf | hf
  · exact absurd heq (Nat.ne_of_lt (output_position_strict ctx i j hi hf))
  · have hbi : block_of ctx i < ctx.gridSz := block_of_lt ctx i hB
    have hbj : block_of ctx j < ctx.gridSz := block_of_lt ctx j hB
    have hpe : row_partition_numbers ctx i = row_partition_numbers ctx j := by
      have h1 : (row_partition_numbers ctx i * ctx.gridSz + block_of ctx i) /
          ctx.gridSz = row_partition_numbers ctx i := by
        rw [Nat.mul_comm, Nat.mul_add_div hB, Nat.div_eq_of_lt hbi, Nat.add_zero]
      have h2 : (row_partition_numbers ctx j * ctx.gridSz + block_of ctx j) /
          ctx.gridSz = row_partition_numbers ctx j := by
        rw [Nat.mul_comm, Nat.mul_add_div hB, Nat.div_eq_of_lt hbj, Nat.add_zero]
      rw [← h1, ← h2, hf]
    have hbe : block_of ctx i = block_of ctx j := by
      rw [hpe] at hf
      omega
    have hoe : row_partition_offset ctx i = row_partition_offset ctx j := by
      have := heq
      rw [output_position, output_position, hpe, hbe] at this
      omega
    rcases Nat.lt_trichotomy i j with hij | hij | hij
    · exact absurd hoe
        (Nat.ne_of_lt (row_partition_offset_strictMono ctx i j hij hpe hbe))
    · exact hij
    · exact absurd hoe.symm
        (Nat.ne_of_lt (row_partition_offset_strictMono ctx j i hij hpe.symm hbe.symm))
  · exact absurd heq.symm (Nat.ne_of_lt (output_position_strict ctx j i hj hf))

/-! ### The output buffer as a permutation of the input -/

theorem move_to_output_buffer_getD {α : Type} (ctx : PartCtx)
    (input : List α) (d : α) (k i : Nat) (hk : k < ctx.num_rows)
    (hi : i < ctx.num_rows) (hpos : output_position ctx i = k) :
    (move_to_output_buffer ctx input d).getD k d = input.getD i d := by
  have hk' : k < ((List.range ctx.num_rows).map (fun k =>
      match (List.range ctx.num_rows).find?
          (fun i => output_position ctx i == k) with
      | some i => input.getD i d
      | none => d)).length := by
    rw [List.length_map, List.length_range]; exact hk
  rw [move_to_output_buffer, List.getD_eq_getElem _ _ hk', List.getElem_map,
    List.getElem_range]
  have hsome : ((List.range ctx.num_rows).find?
      (fun i => output_position ctx i == k)).isSome := by
    rw [List.find?_isSome]
    exact ⟨i, List.mem_range.2 hi, by simp [hpos]⟩
  obtain ⟨i0, hfind⟩ := Option.isSome_iff_exists.1 hsome
  have hp0 : output_position ctx i0 = k := by
    have := List.find?_some hfind
    simpa using this
  have hi0 : i0 < ctx.num_rows := List.mem_range.1 (List.mem_of_find?_eq_some hfind)
  have : i0 = i := output_position_injOn ctx i0 i hi0 hi (by rw [hp0, hpos])
  rw [hfind, this]

/-- Transport of a `List.range`-indexed map along a self-injection of
`[0, R)`: reindexing by such a map permutes the list, so the multisets
agree. -/
theorem range_map_comp_perm {β : Type} (R : Nat) (τ : Nat → Nat)
    (hlt : ∀ k, k < R → τ k < R)
    (hinj : ∀ k l, k < R → l < R → τ k = τ l → k = l)
    (g : Nat → β) :
    (↑((List.range R).map (fun k => g (τ k))) : Multiset β) =
      ↑((List.range R).map g) := by
  have hinjOn : Set.InjOn τ ↑(Finset.range R) := fun a ha b hb hab =>
    hinj a b (Finset.mem_range.1 ha) (Finset.mem_range.1 hb) hab
  have hsub : (Finset.range R).image τ ⊆ Finset.range R := by
    intro x hx
    obtain ⟨kk, hkk, rfl⟩ := Finset.mem_image.1 hx
    exact Finset.mem_range.2 (hlt kk (Finset.mem_range.1 hkk))
  have himg : (Finset.range R).image τ = Finset.range R :=
    Finset.eq_of_subset_of_card_le hsub
      (by rw [Finset.card_image_of_injOn hinjOn, Finset.card_range])
  have hval : Multiset.map τ (Finset.range R).val = (Finset.range R).val := by
    rw [← Finset.image_val_of_injOn hinjOn, himg]
  have hlist : (↑((List.range R).map (fun k => g (τ k))) : Multiset β) =
      Multiset.map g (Multiset.map τ ↑(List.range R)) := by
    rw [Multiset.map_map]
    rfl
  rw [hlist]
  have hcoe : (↑(List.range R) : Multiset Nat) = (Finset.range R).val := rfl
  rw [hcoe, hval]
  rfl

/-- Reading every position of a list through `getD` reproduces the list. -/
theorem range_map_getD {α : Type} (l : List α) (d : α) :
    (List.range l.length).map (fun k => l.getD k d) = l := by
  apply List.ext_getElem
  · rw [List.length_map, List.length_range]
  · intro n h1 h2
    rw [List.getElem_map, List.getElem_range, List.getD_eq_getElem _ _ h2]

/-- Every output slot is hit by some row: `output_position` is surjective onto
`[0, num_rows)` because it is injective from `[0, num_rows)` into it. -/
theorem output_position_surjOn (ctx : PartCtx) (k : Nat)
    (hk : k < ctx.num_rows) (hN : 0 < ctx.num_partitions) :
    ∃ i, i < ctx.num_rows ∧ output_position ctx i = k := by
  have hbij : Function.Bijective (fun i : Fin ctx.num_rows =>
      (⟨output_position ctx i.val, output_position_lt ctx i.val i.isLt hN⟩ :
        Fin ctx.num_rows)) := by
    rw [← Finite.injective_iff_bijective]
    intro a b hab
    exact Fin.ext (output_position_injOn ctx a.val b.val a.isLt b.isLt
      (congrArg Fin.val hab))
  obtain ⟨i, hi⟩ := hbij.2 ⟨k, hk⟩
  exact ⟨i.val, i.isLt, congrArg Fin.val hi⟩

theorem inverse_position_spec (ctx : PartCtx) (k : Nat)
    (hk : k < ctx.num_rows) (hN : 0 < ctx.num_partitions) :
    inverse_position ctx k < ctx.num_rows ∧
      output_position ctx (inverse_position ctx k) = k := by
  obtain ⟨i, hiR, hip⟩ := output_position_surjOn ctx k hk hN
  have hsome : ((List.range ctx.num_rows).find?
      (fun i => output_position ctx i == k)).isSome := by
    rw [List.find?_isSome]
    exact ⟨i, List.mem_range.2 hiR, by simp [hip]⟩
  obtain ⟨i0, hfind⟩ := Option.isSome_iff_exists.1 hsome
  have hτ : inverse_position ctx k = i0 := by
    rw [inverse_position, hfind]
    rfl
  have hp0 : output_position ctx i0 = k := by
    have := List.find?_some hfind
    simpa using this
  have hi0 : i0 < ctx.num_rows :=
    List.mem_range.1 (List.mem_of_find?_eq_some hfind)
  rw [hτ]
  exact ⟨hi0, hp0⟩

theorem inverse_position_injOn (ctx : PartCtx) (k l : Nat)
    (hk : k < ctx.num_rows) (hl : l < ctx.num_rows)
    (hN : 0 < ctx.num_partitions)
    (heq : inverse_position ctx k = inverse_position ctx l) : k = l := by
  have h1 := (inverse_position_spec ctx k hk hN).2
  have h2 := (inverse_position_spec ctx l hl hN).2
  rw [← h1, ← h2, heq]

/-- Row `k` of the output table is row `inverse_position k` of the input
table: all columns are moved by the same routing arrays. -/
theorem table_rows_output_table (ctx : PartCtx) {α : Type}
    (cols : List (List α)) (d : α) (hN : 0 < ctx.num_partitions) :
    table_rows ctx.num_rows (output_table ctx cols d) d =
      (List.range ctx.num_rows).map (fun k =>
        cols.map (fun c => c.getD (inverse_position ctx k) d)) := by
  rw [table_rows]
  apply List.map_congr_left
  intro k hk
  have hkR : k < ctx.num_rows := List.mem_range.1 hk
  obtain ⟨hτR, hτpos⟩ := inverse_position_spec ctx k hkR hN
  rw [output_table, List.map_map]
  apply List.map_congr_left
  intro c _
  exact move_to_output_buffer_getD ctx c d k (inverse_position ctx k)
    hkR hτR hτpos

/-- The multiset of rows of the output table equals the multiset of rows of
the input table. -/
theorem output_table_rows_perm (ctx : PartCtx) {α : Type}
    (cols : List (List α)) (d : α) (hN : 0 < ctx.num_partitions) :
    (↑(table_rows ctx.num_rows (output_table ctx cols d) d) :
        Multiset (List α)) =
      ↑(table_rows ctx.num_rows cols d) := by
  rw [table_rows_output_table ctx cols d hN]
  exact range_map_comp_perm ctx.num_rows (inverse_position ctx)
    (fun k hk => (inverse_position_spec ctx k hk hN).1)
    (fun k l hk hl h => inverse_position_injOn ctx k l hk hl hN h)
    (fun k => cols.map (fun c => c.getD k d))

/-- Entry `p < num_partitions` of the returned offsets vector is the exclusive
scan of the global histogram at `p`. -/
theorem partition_offsets_getD (ctx : PartCtx) (p : Nat)
    (hp : p < ctx.num_partitions) :
    (partition_offsets ctx).getD p 0 = scanned_global_partition_sizes ctx p := by
  have hp' : p < ((List.range ctx.num_partitions).map
      (scanned_global_partition_sizes ctx)).length := by
    rw [List.length_map, List.length_range]; exact hp
  rw [partition_offsets, List.getD_eq_getElem _ _ hp', List.getElem_map,
    List.getElem_range]

/-! ### Claim theorems -/

/-- C3: for every invocation of hash_partition on non-empty input with N > 0
partitions, the returned partition_offsets vector has length N, its first
element is 0, it is non-decreasing, and partition_offsets[p] plus the number
of rows assigned to partition p equals partition_offsets[p+1] (equals R for
p = N-1); equivalently the partition sizes sum to R. -/
theorem partition_offsets_closure (ctx : PartCtx)
    (hR : 0 < ctx.num_rows) (hN : 0 < ctx.num_partitions) :
    (partition_offsets ctx).length = ctx.num_partitions ∧
    (partition_offsets ctx).getD 0 0 = 0 ∧
    (∀ p q, p ≤ q → q < ctx.num_partitions →
      (partition_offsets ctx).getD p 0 ≤ (partition_offsets ctx).getD q 0) ∧
    (∀ p, p + 1 < ctx.num_partitions →
      (partition_offsets ctx).getD p 0 + global_partition_sizes ctx p =
        (partition_offsets ctx).getD (p + 1) 0) ∧
    ((partition_offsets ctx).getD (ctx.num_partitions - 1) 0 +
      global_partition_sizes ctx (ctx.num_partitions - 1) = ctx.num_rows) ∧
    (∑ p ∈ Finset.range ctx.num_partitions, global_partition_sizes ctx p =
      ctx.num_rows) := by
  refine ⟨?_, ?_, ?_, ?_, ?_, sum_global_eq_num_rows ctx hN⟩
  · rw [partition_offsets, List.length_map, List.length_range]
  · rw [partition_offsets_getD ctx 0 hN, scanned_global_partition_sizes]
    simp
  · intro p q hpq hq
    rw [partition_offsets_getD ctx p (Nat.lt_of_le_of_lt hpq hq),
      partition_offsets_getD ctx q hq,
      scanned_global_partition_sizes, scanned_global_partition_sizes]
    exact Finset.sum_le_sum_of_subset (Finset.range_subset.2 hpq)
  · intro p hp
    rw [partition_offsets_getD ctx p (by omega), partition_offsets_getD ctx _ hp,
      scanned_global_partition_sizes, scanned_global_partition_sizes,
      Finset.sum_range_succ]
  · have hN1 : ctx.num_partitions - 1 + 1 = ctx.num_partitions := by omega
    rw [partition_offsets_getD ctx _ (by omega),
      ← sum_global_eq_num_rows ctx hN, scanned_global_partition_sizes,
      ← Finset.sum_range_succ, hN1]

/-- Witness for C3: the closure properties hold at a concrete invocation
(three rows, two partitions, the identity hasher). -/
theorem partition_offsets_closure_witness :
    (partition_offsets exCtx).length = exCtx.num_partitions :=
  (partition_offsets_closure exCtx (by decide) (by decide)).1

/-- C6: for every 32-bit hash value h and every positive power-of-two N, the
bitmask partitioner (h AND (N-1)) and the modulo partitioner (h mod N) return
the same partition index, so for every such N the two variants produce
identical partition assignments for every input table. -/
theorem power_of_two_partitioners_agree (hv k : Nat) (hh : hv < 2 ^ 32)
    (ctx : PartCtx) (hN : ctx.num_partitions = 2 ^ k) :
    bitwise_partitioner ctx.num_partitions hv =
      modulo_partitioner ctx.num_partitions hv ∧
    ∀ i, row_partition_numbers ctx i =
      modulo_partitioner ctx.num_partitions (ctx.the_hasher i) := by
  have hpt : ∀ x : Nat, bitwise_partitioner ctx.num_partitions x =
      modulo_partitioner ctx.num_partitions x := by
    intro x
    rw [bitwise_partitioner, modulo_partitioner, hN,
      Nat.and_pow_two_sub_one_eq_mod]
  have hp2 : is_power_two ctx.num_partitions = true := by
    rw [is_power_two, hN]
    simp [Nat.and_pow_two_sub_one_eq_mod]
  refine ⟨hpt hv, fun i => ?_⟩
  rw [row_partition_numbers, the_partitioner, hp2, if_pos rfl]
  exact hpt _

/-- Witness for C6: at N = 2 and hash value 5, both partitioners yield
partition 1. -/
theorem power_of_two_partitioners_agree_witness :
    bitwise_partitioner exCtx.num_partitions 5 =
      modulo_partitioner exCtx.num_partitions 5 :=
  (power_of_two_partitioners_agree 5 1 (by decide) exCtx (by decide)).1

/-- C7: after the histogram kernel completes, (1) the sum over all partitions
p of global_histogram[p] equals R, and (2) for every row i, row_local_offset[i]
is strictly less than block_histogram[row_partition[i]][block_of(i)], the
count of rows of row i's block destined for row i's partition. -/
theorem histogram_invariants (ctx : PartCtx) (hN : 0 < ctx.num_partitions) :
    (∑ p ∈ Finset.range ctx.num_partitions, global_partition_sizes ctx p =
      ctx.num_rows) ∧
    ∀ i, i < ctx.num_rows →
      row_partition_offset ctx i <
        block_partition_sizes ctx (row_partition_numbers ctx i)
          (block_of ctx i) :=
  ⟨sum_global_eq_num_rows ctx hN, fun i hi => row_partition_offset_lt ctx i hi⟩

/-- Witness for C7: the histogram of a concrete four-row, three-partition
invocation sums to the row count. -/
theorem histogram_invariants_witness :
    ∑ p ∈ Finset.range exCtx3.num_partitions, global_partition_sizes exCtx3 p =
      exCtx3.num_rows :=
  (histogram_invariants exCtx3 (by decide)).1

/-- C1 counterexample: the claim quantifies over every positive partition
count, but `move_to_output_buffer` supports at most
`ELEMENT_PER_BLOCK * BLOCK_SIZE = 1024` partitions (source comment, line 204).
At the concrete input (one non-null int32 column, one row, key column 0,
N = 1025) `hash_partition` does not short-circuit and launches the kernels,
yet the scatter kernel's copy loop reads `partition_offset_shared[1025]`
(line 265 with `ipartition = 1024`), a shared-memory slot no line of the
kernel writes, so the output is not the claimed permutation of the input:
its content depends on an uninitialized read. -/
theorem move_to_output_buffer_uninitialized_read_at_1025 :
    (hash_partition exTable [0] 1025 (fun i => i)).1 ≠ [] ∧
    copy_loop_reads_slot 1025 1025 = true ∧
    shared_slot_written 1025 1025 = false := by decide

/-- C1 (amended): for every input table with R > 0 rows of fixed-width,
non-null columns, every non-empty key-column selection, and every positive
number of partitions N that does not exceed the scatter kernel's partition
capacity `ELEMENT_PER_BLOCK * BLOCK_SIZE = 1024`, the table returned by
hash_partition contains exactly the rows of the input as a multiset (each
input row appears exactly once in the output, at some position).  The row
hasher over the selected key columns is abstract, covering every key
selection. -/
theorem hash_partition_preserves_row_multiset {α : Type} (ctx : PartCtx)
    (hR : 0 < ctx.num_rows) (hN : 0 < ctx.num_partitions)
    (hNmax : ctx.num_partitions ≤ ELEMENT_PER_BLOCK * BLOCK_SIZE)
    (cols : List (List α)) (hcols : ∀ c ∈ cols, c.length = ctx.num_rows)
    (d : α) :
    (↑(table_rows ctx.num_rows (output_table ctx cols d) d) :
        Multiset (List α)) =
      ↑(table_rows ctx.num_rows cols d) :=
  output_table_rows_perm ctx cols d hN

/-- Witness for C1: a concrete two-column, three-row table is permuted with
its row multiset preserved. -/
theorem hash_partition_preserves_row_multiset_witness :
    (↑(table_rows exCtx.num_rows
        (output_table exCtx [[10, 20, 30], [1, 2, 3]] 0) 0) :
      Multiset (List Nat)) =
      ↑(table_rows exCtx.num_rows [[10, 20, 30], [1, 2, 3]] 0) :=
  hash_partition_preserves_row_multiset exCtx (by decide) (by decide)
    (by decide) [[10, 20, 30], [1, 2, 3]] (by decide) 0

/-- C2 counterexample: the claim quantifies over every input accepted by
hash_partition, but for N = 2000 partitions (accepted: no guard rejects it)
the scatter kernel that must place the co-located rows reads the unwritten
shared slot `partition_offset_shared[1500]` (only slots up to
`ELEMENT_PER_BLOCK * BLOCK_SIZE = 1024` are written, lines 204-229), so where
rows land in the output table is not defined.  Concrete input: one non-null
int32 column of two rows with bitwise-equal key cells (constant hasher),
key column 0, N = 2000; hash_partition proceeds to the kernel launches. -/
theorem scatter_uninitialized_read_at_2000 :
    (hash_partition
        { cols := [{ dtype := DType.int32, nullable := false }], num_rows := 2 }
        [0] 2000 (fun _ => 0)).1 ≠ [] ∧
    copy_loop_reads_slot 2000 1500 = true ∧
    shared_slot_written 2000 1500 = false := by decide

/-- Congruence of the per-cell contribution: cells that are bitwise equal, or
jointly null under the null-aware path, contribute the same value to the row
hash. -/
theorem cell_contribution_congr (cellHash : Nat → Nat) (sentinel : Nat)
    (has_nulls : Bool) (c1 c2 : Cell)
    (hnull : c1.null = c2.null ∨ has_nulls = false)
    (hbits : c1.bits = c2.bits ∨
      (has_nulls = true ∧ c1.null = true ∧ c2.null = true)) :
    cell_contribution cellHash sentinel has_nulls c1 =
      cell_contribution cellHash sentinel has_nulls c2 := by
  rw [cell_contribution, cell_contribution]
  cases hn : has_nulls
  · have hb : c1.bits = c2.bits := by
      rcases hbits with h | ⟨h', _⟩
      · exact h
      · rw [hn] at h'; cases h'
    simp [hb]
  · have hnul : c1.null = c2.null := by
      rcases hnull with h | h
      · exact h
      · rw [h] at hn; cases hn
    by_cases hni : c1.null = true
    · have hnj : c2.null = true := hnul ▸ hni
      simp [hni, hnj]
    · have hnf : c1.null = false := by revert hni; cases c1.null <;> simp
      have hnjf : c2.null = false := hnul ▸ hnf
      have hb : c1.bits = c2.bits := by
        rcases hbits with h | ⟨_, h1', _⟩
        · exact h
        · exact absurd h1' hni
      simp [hnf, hnjf, hb]

/-- C2 (amended): for every input accepted by hash_partition whose partition
count does not exceed the scatter kernel's capacity
`ELEMENT_PER_BLOCK * BLOCK_SIZE = 1024`, and any two row indices i, j whose
key-column cells are bitwise equal (or, under the null-aware path, null in
exactly the same key columns), rows i and j are assigned the same partition
index, and hence land in the same contiguous partition
`[partition_start, partition_start + partition_size)` of the output table. -/
theorem equal_keys_same_partition (cellHash : Nat → Nat)
    (combine : Nat → Nat → Nat) (sentinel init : Nat) (has_nulls : Bool)
    (keyCells : Nat → List Cell) (ctx : PartCtx)
    (hhash : ctx.the_hasher = fun r =>
      row_hasher cellHash combine sentinel init has_nulls (keyCells r))
    (i j : Nat) (hR : 0 < ctx.num_rows) (hN : 0 < ctx.num_partitions)
    (hNmax : ctx.num_partitions ≤ ELEMENT_PER_BLOCK * BLOCK_SIZE)
    (hi : i < ctx.num_rows) (hj : j < ctx.num_rows)
    (hlen : (keyCells i).length = (keyCells j).length)
    (hcells : ∀ k, k < (keyCells i).length →
      (((keyCells i).getD k ⟨0, false⟩).null =
          ((keyCells j).getD k ⟨0, false⟩).null ∨ has_nulls = false) ∧
      (((keyCells i).getD k ⟨0, false⟩).bits =
          ((keyCells j).getD k ⟨0, false⟩).bits ∨
        (has_nulls = true ∧ ((keyCells i).getD k ⟨0, false⟩).null = true ∧
          ((keyCells j).getD k ⟨0, false⟩).null = true))) :
    row_partition_numbers ctx i = row_partition_numbers ctx j ∧
    (scanned_global_partition_sizes ctx (row_partition_numbers ctx i) ≤
        output_position ctx i ∧
      output_position ctx i <
        scanned_global_partition_sizes ctx (row_partition_numbers ctx i) +
          global_partition_sizes ctx (row_partition_numbers ctx i)) ∧
    (scanned_global_partition_sizes ctx (row_partition_numbers ctx i) ≤
        output_position ctx j ∧
      output_position ctx j <
        scanned_global_partition_sizes ctx (row_partition_numbers ctx i) +
          global_partition_sizes ctx (row_partition_numbers ctx i)) := by
  have hmap : (keyCells i).map (cell_contribution cellHash sentinel has_nulls) =
      (keyCells j).map (cell_contribution cellHash sentinel has_nulls) := by
    apply List.ext_getElem
    · rw [List.length_map, List.length_map, hlen]
    · intro k h1 h2
      rw [List.length_map] at h1 h2
      rw [List.getElem_map, List.getElem_map]
      obtain ⟨hnull, hbits⟩ := hcells k h1
      rw [List.getD_eq_getElem _ _ h1, List.getD_eq_getElem _ _ h2]
        at hnull hbits
      exact cell_contribution_congr cellHash sentinel has_nulls _ _ hnull hbits
  have hheq : ctx.the_hasher i = ctx.the_hasher j := by
    rw [hhash]
    show row_hasher cellHash combine sentinel init has_nulls (keyCells i) =
      row_hasher cellHash combine sentinel init has_nulls (keyCells j)
    rw [row_hasher, row_hasher, hmap]
  have hpart : row_partition_numbers ctx i = row_partition_numbers ctx j := by
    rw [row_partition_numbers, row_partition_numbers, hheq]
  have hbj := output_position_bounds ctx j hj hN
  rw [← hpart] at hbj
  exact ⟨hpart, output_position_bounds ctx i hi hN, hbj⟩

/-- Witness for C2: rows 0 and 2 of a concrete three-row table carry
identical single key cells and are assigned the same partition. -/
theorem equal_keys_same_partition_witness :
    row_partition_numbers exCtxCells 0 = row_partition_numbers exCtxCells 2 :=
  (equal_keys_same_partition (fun b => b + 7) (fun a b => 31 * a + b) 42 0
    true exKeyCells exCtxCells rfl 0 2 (by decide) (by decide) (by decide)
    (by decide) (by decide) (by decide) (by decide)).1

/-- Dispatching a column list that contains a non-fixed-width column always
ends in an error. -/
theorem process_columns_error (cols : List ColumnView)
    (h : ∃ c ∈ cols, c.dtype.is_fixed_width = false) :
    (process_columns cols).2.isSome := by
  induction cols with
  | nil => simp at h
  | cons c rest ih =>
    obtain ⟨c', hc', hbad⟩ := h
    rcases List.mem_cons.1 hc' with rfl | hmem
    · simp [process_columns, dispatch_column, hbad]
    · cases hd : dispatch_column c with
      | mk evs err =>
        cases err with
        | some msg => simp [process_columns, hd]
        | none =>
          simp [process_columns, hd]
          exact ih ⟨c', hmem, hbad⟩

/-- C4 counterexample: at the concrete input (one string column, one row, key
column 0, N = 2) the operation does raise the precondition-violation error,
but not synchronously before kernel launch: by the time the per-column
dispatcher rejects the string column, the histogram kernel has been launched
and the routing tables allocated (the error check lives in
`move_to_output_buffer_dispatcher`, reached only from the `std::transform`
at lines 420-432, after the launches of lines 356-411). -/
theorem hash_partition_invalid_type_raises_late :
    (hash_partition exStringTable [0] 2 (fun i => i)).2 =
      Except.error "non-fixed width types unsupported" ∧
    HPEvent.launchHistogramKernel ∈ (hash_partition exStringTable [0] 2 (fun i => i)).1 ∧
    HPEvent.allocRoutingTables ∈ (hash_partition exStringTable [0] 2 (fun i => i)).1 :=
  ⟨rfl, by decide, by decide⟩

/-- C4 (amended): when hash_partition is called, past the empty-input checks,
with an unsupported (non-fixed-width) column type among the input columns, a
precondition-violation error is raised — but only during per-column output
dispatch, after the histogram kernel has been launched and the routing tables
allocated. -/
theorem hash_partition_invalid_type_raises (input : TableView)
    (keys : List Nat) (N : Int) (hasher : Nat → Nat)
    (hval : ¬(N ≤ 0 ∨ input.num_rows = 0 ∨
      (keys.filterMap (fun k => input.cols.get? k)).length = 0))
    (hbad : ∃ c ∈ input.cols, c.dtype.is_fixed_width = false) :
    (∃ msg, (hash_partition input keys N hasher).2 = Except.error msg) ∧
    HPEvent.launchHistogramKernel ∈ (hash_partition input keys N hasher).1 ∧
    HPEvent.allocRoutingTables ∈ (hash_partition input keys N hasher).1 := by
  have hsome := process_columns_error input.cols hbad
  obtain ⟨msg, hmsg⟩ := Option.isSome_iff_exists.1 hsome
  cases hp : process_columns input.cols with
  | mk evs err =>
    cases err with
    | none => rw [hp] at hmsg; cases hmsg
    | some m =>
      simp only [hash_partition, if_neg hval, hash_partition_table, hp]
      exact ⟨⟨m, rfl⟩, by simp, by simp⟩

/-- Witness for C4: at the concrete string-column input the amended claim
holds — the operation errs and the histogram kernel was launched. -/
theorem hash_partition_invalid_type_raises_witness :
    HPEvent.launchHistogramKernel ∈ (hash_partition exStringTable [0] 2 (fun i => i)).1 :=
  (hash_partition_invalid_type_raises exStringTable [0] 2 (fun i => i)
    (by decide) (by decide)).2.1

/-- C8 counterexample: a zero-column table with a non-empty seed vector of
mismatched length (1 seed, 0 columns) does not raise: `detail::hash` returns
the INT32 column before the seed-length check (lines 482-484 precede
lines 491-493). -/
theorem hash_seed_mismatch_zero_columns_no_error :
    (hash exNoColsTable [7]).2 =
      Except.ok { dtype := DType.int32, len := 5 } ∧
    ([7] : List Nat) ≠ [] ∧
    ([7] : List Nat).length ≠ exNoColsTable.cols.length :=
  ⟨rfl, by decide, by decide⟩

/-- C8 (amended): for every call to hash on a table with at least one column
and at least one row, with a non-empty initial_hash seed vector whose length
differs from the number of columns, the operation raises the
precondition-violation error; zero-column or zero-row tables instead return
the INT32 column early, before the seed-length check. -/
theorem hash_seed_mismatch_raises (input : TableView) (seeds : List Nat)
    (hcols : input.cols.length ≠ 0) (hrows : input.num_rows ≠ 0)
    (hne : seeds ≠ []) (hlen : seeds.length ≠ input.cols.length) :
    (hash input seeds).2 =
      Except.error "Expected same size of initial hash values as number of columns" := by
  simp only [hash]
  rw [if_neg (by rw [not_or]; exact ⟨hcols, hrows⟩), if_pos hne, if_pos hlen]

/-- Witness for C8: a one-column table with two seeds raises the
seed-mismatch error. -/
theorem hash_seed_mismatch_raises_witness :
    (hash exTable [1, 2]).2 =
      Except.error "Expected same size of initial hash values as number of columns" :=
  hash_seed_mismatch_raises exTable [1, 2] (by decide) (by decide) (by decide)
    (by decide)

/-- C9: for every call to hash_partition with R = 0 rows, or N ≤ 0
partitions, or zero key columns, the operation returns an empty-like copy of
the input table (same schema, zero rows) together with an empty
partition_offsets vector, without raising an error (and without issuing any
device work). -/
theorem hash_partition_empty_returns_empty_like (input : TableView)
    (keys : List Nat) (N : Int) (hasher : Nat → Nat)
    (h : N ≤ 0 ∨ input.num_rows = 0 ∨ keys = []) :
    hash_partition input keys N hasher =
      ([], Except.ok (empty_like input, [])) := by
  have hcond : N ≤ 0 ∨ input.num_rows = 0 ∨
      (keys.filterMap (fun k => input.cols.get? k)).length = 0 := by
    rcases h with h | h | h
    · exact Or.inl h
    · exact Or.inr (Or.inl h)
    · exact Or.inr (Or.inr (by rw [h]; rfl))
  simp only [hash_partition]
  rw [if_pos hcond]

/-- Witness for C9: N = -1 on a non-empty table short-circuits to the
empty-like result. -/
theorem hash_partition_empty_returns_empty_like_witness :
    hash_partition exTable [0] (-1) (fun i => i) =
      ([], Except.ok (empty_like exTable, [])) :=
  hash_partition_empty_returns_empty_like exTable [0] (-1) (fun i => i)
    (Or.inl (by decide))

/-- C10: for every input table and every seed vector for which hash does not
raise, the returned column has element type INT32 (signed, not the unsigned
32-bit type) and exactly input.num_rows rows; when the input table has zero
columns or zero rows the column is returned immediately with this type and
length without launching any hashing work. -/
theorem hash_returns_int32_column (input : TableView) (seeds : List Nat)
    (tr : List HashEvent) (col : HashColumn)
    (h : hash input seeds = (tr, Except.ok col)) :
    col.dtype = DType.int32 ∧ col.dtype ≠ DType.uint32 ∧
    col.len = input.num_rows ∧
    (input.cols.length = 0 ∨ input.num_rows = 0 →
      tr = [HashEvent.makeOutputColumn] ∧ HashEvent.tabulateHashes ∉ tr) := by
  simp only [hash] at h
  by_cases h0 : input.cols.length = 0 ∨ input.num_rows = 0
  · rw [if_pos h0] at h
    have htr : tr = [HashEvent.makeOutputColumn] := (congrArg Prod.fst h).symm
    have hcol : col = { dtype := DType.int32, len := input.num_rows } := by
      have h2 := congrArg Prod.snd h
      simp only [Except.ok.injEq] at h2
      exact h2.symm
    subst htr hcol
    exact ⟨rfl, by show DType.int32 ≠ DType.uint32; decide, rfl,
      fun _ => ⟨rfl, by decide⟩⟩
  · rw [if_neg h0] at h
    have hfin : tr = [HashEvent.makeOutputColumn, HashEvent.tabulateHashes] ∧
        col = { dtype := DType.int32, len := input.num_rows } := by
      by_cases hne : seeds ≠ []
      · rw [if_pos hne] at h
        by_cases hlen : seeds.length ≠ input.cols.length
        · rw [if_pos hlen] at h
          have h2 := congrArg Prod.snd h
          simp only at h2
          cases h2
        · rw [if_neg hlen] at h
          have h2 := congrArg Prod.snd h
          simp only [Except.ok.injEq] at h2
          exact ⟨(congrArg Prod.fst h).symm, h2.symm⟩
      · rw [if_neg hne] at h
        have h2 := congrArg Prod.snd h
        simp only [Except.ok.injEq] at h2
        exact ⟨(congrArg Prod.fst h).symm, h2.symm⟩
    obtain ⟨htr, hcol⟩ := hfin
    subst htr hcol
    exact ⟨rfl, by show DType.int32 ≠ DType.uint32; decide, rfl,
      fun hz => absurd hz h0⟩

/-- Witness for C10: a zero-column table yields the INT32 column of five rows
immediately. -/
theorem hash_returns_int32_column_witness :
    ({ dtype := DType.int32, len := 5 } : HashColumn).dtype = DType.int32 :=
  (hash_returns_int32_column exNoColsTable [] [HashEvent.makeOutputColumn]
    { dtype := DType.int32, len := 5 } rfl).1

end cudf
